import Mathlib

/-! Shallow embedding of the arbfinder core: the arbitrage scanner and fetch
orchestrator of src/logic.py and the bankroll allocator of src/gui.py.
Decimal prices and timestamps are modelled as rationals; Python dicts keyed
by outcome name are modelled as association lists in insertion order,
matching Python's dict iteration order. -/

/-- One (outcome name, decimal price) entry of a market, an element of
`market["outcomes"]`. -/
structure OutcomeQuote where
  name : String
  price : ℚ
deriving DecidableEq

/-- One market of a bookmaker, an element of `bookmaker["markets"]`. -/
structure Market where
  outcomes : List OutcomeQuote
deriving DecidableEq

/-- One bookmaker entry of a match, an element of `match["bookmakers"]`. -/
structure Bookmaker where
  title : String
  markets : List Market
deriving DecidableEq

/-- One well-formed raw match record, carrying the fields `process_data`
reads. -/
structure RawMatch where
  commence_time : ℤ
  home_team : String
  away_team : String
  sport_key : String
  bookmakers : List Bookmaker
deriving DecidableEq

/-- Quotes of the first market of a bookmaker; empty when the bookmaker has
no markets (`if not bookmaker["markets"]: continue`, logic.py 110-113). -/
def firstMarketQuotes (b : Bookmaker) : List OutcomeQuote :=
  match b.markets with
  | [] => []
  | mk :: _ => mk.outcomes

/-- All outcome names observed across the bookmakers' first markets, with
repetitions, in observation order. -/
def observedNames (bs : List Bookmaker) : List String :=
  bs.flatMap fun b => (firstMarketQuotes b).map OutcomeQuote.name

/-- Append quote `q` to the entry of key `n` of the association list `acc`,
creating the key at the end when absent: the effect of
`outcomes_data[outcome_name].append((bookie_name, odd))` on a Python dict
(logic.py 119-122). -/
def addQuote (acc : List (String × List (String × ℚ))) (n : String)
    (q : String × ℚ) : List (String × List (String × ℚ)) :=
  match acc with
  | [] => [(n, [q])]
  | (k, qs) :: rest =>
      if k = n then (k, qs ++ [q]) :: rest else (k, qs) :: addQuote rest n q

/-- Record every outcome of a bookmaker's first market into the accumulator:
the inner loop of `process_data` (logic.py 106-122). -/
def addBookmaker (acc : List (String × List (String × ℚ)))
    (b : Bookmaker) : List (String × List (String × ℚ)) :=
  (firstMarketQuotes b).foldl (fun a o => addQuote a o.name (b.title, o.price)) acc

/-- The `outcomes_data` dict right after the bookmaker loop. -/
def buildOutcomesData (bs : List Bookmaker) : List (String × List (String × ℚ)) :=
  bs.foldl addBookmaker []

/-- Insert a quote into a list sorted descending by price, before the first
strictly cheaper entry: one step of a stable descending sort. -/
def insertDesc (q : String × ℚ) : List (String × ℚ) → List (String × ℚ)
  | [] => [q]
  | r :: rs => if r.2 ≤ q.2 then q :: r :: rs else r :: insertDesc q rs

/-- Stable sort of a quote list, descending by price:
`outcomes_data[outcome_name].sort(key=lambda x: x[1], reverse=True)`
(logic.py 124-126). -/
def sortQuotesDesc (l : List (String × ℚ)) : List (String × ℚ) :=
  l.foldr insertDesc []

/-- Per-match `outcomes_data` after the descending sort. -/
def sortedCandidates (m : RawMatch) : List (String × List (String × ℚ)) :=
  (buildOutcomesData m.bookmakers).map fun p => (p.1, sortQuotesDesc p.2)

/-- The `outcome_names` list: the dict's keys in insertion order
(logic.py 129). -/
def outcomeNames (m : RawMatch) : List String :=
  (sortedCandidates m).map Prod.fst

/-- Best-case implied-odds sum over the top price per outcome
(logic.py 133-135); outcomes with an empty candidate list are skipped by the
guard `if outcomes_data[name]` of the dict comprehension. -/
def bestImpliedSum (m : RawMatch) : ℚ :=
  ((sortedCandidates m).filterMap fun p => p.2.head?.map fun q => 1 / q.2).sum

/-- Truncate one outcome's candidate list to its top 2 entries when it is
longer (logic.py 144-146). -/
def capList (l : List (String × ℚ)) : List (String × ℚ) :=
  if 2 < l.length then l.take 2 else l

/-- Candidate lists after the combinatorial cap: every outcome's list cut to
its top 2 entries when the match has more than 3 distinct outcomes
(logic.py 141-146). -/
def cappedCandidates (m : RawMatch) : List (String × List (String × ℚ)) :=
  if 3 < (outcomeNames m).length then
    (sortedCandidates m).map fun p => (p.1, capList p.2)
  else sortedCandidates m

/-- Cartesian product of a list of lists in lexicographic order, the last
list cycling fastest: the order of `itertools.product` (logic.py 154). -/
def listProduct : List (List α) → List (List α)
  | [] => [[]]
  | l :: ls => l.flatMap fun x => (listProduct ls).map (x :: ·)

/-- Sum of implied odds `1/price` over the chosen quotes of a combination
(logic.py 159). -/
def totalImplied (c : List (String × ℚ)) : ℚ :=
  (c.map fun q => 1 / q.2).sum

/-- One emitted arbitrage opportunity: the dict yielded at logic.py 163-170. -/
structure Opportunity where
  match_name : String
  match_start_time : ℤ
  hours_to_start : ℚ
  league : String
  best_outcome_odds : List (String × String × ℚ)
  total_implied_odds : ℚ
deriving DecidableEq

/-- Build the opportunity dict yielded for one combination. -/
def mkOpportunity (now : ℚ) (m : RawMatch) (c : List (String × ℚ)) : Opportunity :=
  { match_name := m.home_team ++ " v. " ++ m.away_team
    match_start_time := m.commence_time
    hours_to_start := ((m.commence_time : ℚ) - now) / 3600
    league := m.sport_key
    best_outcome_odds := (outcomeNames m).zip c
    total_implied_odds := totalImplied c }

/-- Combinations `process_data` enumerates for one match: empty when one of
the early `continue`s fires (started-match filter at 96-97, fewer than 2
outcomes at 130-131, best-case implied sum ≥ 1 at 138-139), otherwise the
Cartesian product of the capped per-outcome candidate lists (152-154). -/
def enumCombos (now : ℚ) (includeStarted : Bool) (m : RawMatch) :
    List (List (String × ℚ)) :=
  if includeStarted = false ∧ (m.commence_time : ℚ) < now then []
  else if (outcomeNames m).length < 2 then []
  else if 1 ≤ bestImpliedSum m then []
  else listProduct ((cappedCandidates m).map Prod.snd)

/-- The emission test of logic.py 162: `total_implied_odds < 1 and
total_implied_odds > 0 and (1 - total_implied_odds) >= cutoff`. -/
def emitTest (cutoff : ℚ) (c : List (String × ℚ)) : Bool :=
  decide (totalImplied c < 1 ∧ 0 < totalImplied c ∧ cutoff ≤ 1 - totalImplied c)

/-- Opportunities `process_data` yields for one match, in enumeration
order. -/
def processMatch (now : ℚ) (includeStarted : Bool) (cutoff : ℚ)
    (m : RawMatch) : List Opportunity :=
  ((enumCombos now includeStarted m).filter (emitTest cutoff)).map
    (mkOpportunity now m)

/-- `process_data` over the whole match stream, in input order; the Python
defaults are `include_started_matches = True` and `cutoff = 0`. -/
def process_data (now : ℚ) (includeStarted : Bool) (cutoff : ℚ)
    (ms : List RawMatch) : List Opportunity :=
  ms.flatMap (processMatch now includeStarted cutoff)

/-- Shape-relevant classification of one element of a fetched odds payload,
as the filter at logic.py 201 and `process_data`'s field reads distinguish
them. -/
inductive FetchEntry where
  | matchRec (m : RawMatch)
  | messageDict
  | otherDict
  | nonDict
deriving DecidableEq

/-- The filter predicate of logic.py 201:
`isinstance(x, dict) and "message" not in x`. A `matchRec` is a dict with
the match fields and no "message" key; a `messageDict` is a dict with a
"message" key (an error envelope); an `otherDict` is a dict with neither;
a `nonDict` is any non-dict value. -/
def keepEntry : FetchEntry → Bool
  | .matchRec _ => true
  | .messageDict => false
  | .otherDict => true
  | .nonDict => false

/-- Is the entry a Python dict? -/
def isDictEntry : FetchEntry → Bool
  | .nonDict => false
  | _ => true

/-- Does the entry carry a "message" key? -/
def hasMessageKey : FetchEntry → Bool
  | .messageDict => true
  | _ => false

/-- Reading the match fields of an entry: `none` models the KeyError raised
when `process_data` subscripts a dict missing a field. -/
def readMatch : FetchEntry → Option RawMatch
  | .matchRec m => some m
  | _ => none

/-- Run `process_data` over raw entries; `none` models the exception that
propagates out of `list(...)` when some entry lacks the match fields. -/
def processEntries (now : ℚ) (includeStarted : Bool) (cutoff : ℚ) :
    List FetchEntry → Option (List Opportunity)
  | [] => some []
  | e :: es =>
    match readMatch e with
    | none => none
    | some m =>
      (processEntries now includeStarted cutoff es).map
        (fun rest => processMatch now includeStarted cutoff m ++ rest)

/-- Modelled API failure: any exception `get_data` may raise. -/
structure FetchError where
  message : String
deriving DecidableEq

/-- `fetch_sport_data` (logic.py 81-87): return the payload, catching every
error and substituting an empty list; the argument models the outcome of the
`get_data` call for one sport. -/
def fetch_sport_data (r : Except FetchError (List FetchEntry)) : List FetchEntry :=
  match r with
  | .ok d => d
  | .error _ => []

/-- Sport catalog item as decoded from the sports-listing payload; the two
flags default to false when absent, matching `item.get("has_outrights")` and
`item.get("active", False)`. -/
structure SportItem where
  key : String
  has_outrights : Bool
  active : Bool
deriving DecidableEq

/-- Does `n` lead the character list given second? -/
def leadsWith : List Char → List Char → Bool
  | [], _ => true
  | _ :: _, [] => false
  | a :: as, b :: bs => a = b && leadsWith as bs

/-- Substring test on character lists: Python's `needle in haystack`. -/
def hasSub (n : List Char) : List Char → Bool
  | [] => leadsWith n []
  | c :: cs => leadsWith n (c :: cs) || hasSub n cs

/-- ASCII lowering of one character, modelling Python's `str.lower` on the
ASCII sport keys the listing returns. -/
def lowerChar (c : Char) : Char :=
  if 'A' ≤ c ∧ c ≤ 'Z' then Char.ofNat (c.toNat + 32) else c

/-- ASCII lowering of a character list. -/
def lowerChars (l : List Char) : List Char :=
  l.map lowerChar

/-- The hardcoded popular-sports substrings of `get_sports` (logic.py 49). -/
def popular_sports : List String :=
  ["soccer", "basketball", "baseball", "football", "tennis", "hockey"]

/-- `get_sports` applied to the decoded listing payload (logic.py 51-61):
skip items that have outrights and are inactive, then keep a key iff its
lowercasing contains one of the popular-sport substrings. -/
def get_sports (items : List SportItem) : List String :=
  items.filterMap fun item =>
    if item.has_outrights = true ∧ item.active = false then none
    else if popular_sports.any (fun pop => hasSub pop.toList (lowerChars item.key.toList)) then
      some item.key
    else none

/-- Sports actually queried by `get_arbitrage_opportunities`: the caller's
selection, or `get_sports` of the catalog when the selection is None or
empty (logic.py 187-190; None is modelled as the empty list). -/
def sportsQueried (selected : List String) (catalog : List SportItem) : List String :=
  if selected.isEmpty then get_sports catalog else selected

/-- `get_arbitrage_opportunities` (logic.py 173-207) end to end: resolve the
sports, fetch each sport's payload through `fetch_sport_data`, flatten,
drop the entries failing the line-201 filter, then scan with `process_data`
at its default `include_started_matches = True`. `oddsOf` models
`get_data key · region`. -/
def get_arbitrage_opportunities (now : ℚ) (cutoff : ℚ)
    (selected : List String) (catalog : List SportItem)
    (oddsOf : String → Except FetchError (List FetchEntry)) :
    Option (List Opportunity) :=
  let sports := sportsQueried selected catalog
  let results := sports.map fun s => fetch_sport_data (oddsOf s)
  let data := results.flatten
  let kept := data.filter keepEntry
  processEntries now true cutoff kept

/-- One outcome's bankroll allocation: the dict built at gui.py 280-285. -/
structure Allocation where
  percentage : ℚ
  amount : ℚ
  bookmaker : String
  odd : ℚ
deriving DecidableEq

/-- `calculate_bankroll_allocation` (gui.py 269-292): stake fraction
`(1/odd)/total_implied_odds` per outcome, reported as a percentage and as an
amount of the bankroll; entries keep the outcome's (bookmaker, odd). -/
def calculate_bankroll_allocation (odds_dict : List (String × String × ℚ))
    (total_implied_odds bankroll : ℚ) : List (String × Allocation) :=
  odds_dict.map fun x =>
    (x.1,
      { percentage := (1 / x.2.2) / total_implied_odds * 100
        amount := bankroll * ((1 / x.2.2) / total_implied_odds)
        bookmaker := x.2.1
        odd := x.2.2 })

/-- Total percentage accumulated at gui.py 286, checked against
[99.5, 100.5]. -/
def totalPercentage (allocs : List (String × Allocation)) : ℚ :=
  (allocs.map fun p => p.2.percentage).sum

/-- Sum of the staked amounts of an allocation. -/
def totalStaked (allocs : List (String × Allocation)) : ℚ :=
  (allocs.map fun p => p.2.amount).sum

/-- Payout of one outcome when it wins: its staked amount times its decimal
odds. -/
def payoutOf (a : Allocation) : ℚ :=
  a.amount * a.odd

/-- Profit amount `display_results` reports at gui.py 374:
`bankroll * (1 - total_implied_odds)`. -/
def displayedProfit (bankroll total_implied_odds : ℚ) : ℚ :=
  bankroll * (1 - total_implied_odds)

/-! Helper lemmas about the Cartesian product. -/

theorem mem_listProduct {α : Type} (ls : List (List α)) (c : List α) :
    c ∈ listProduct ls ↔ List.Forall₂ (· ∈ ·) c ls := by
  induction ls generalizing c with
  | nil =>
    simp [listProduct, List.forall₂_nil_right_iff]
  | cons l ls ih =>
    simp only [listProduct, List.mem_flatMap, List.mem_map]
    constructor
    · rintro ⟨x, hx, c', hc', rfl⟩
      exact List.Forall₂.cons hx ((ih c').mp hc')
    · intro h
      cases h with
      | cons hx hc' => exact ⟨_, hx, _, (ih _).mpr hc', rfl⟩

theorem length_flatMap_map_cons {α : Type} (l : List α) (P : List (List α)) :
    (l.flatMap fun x => P.map (x :: ·)).length = l.length * P.length := by
  induction l with
  | nil => simp
  | cons x xs ih =>
    simp only [List.flatMap_cons, List.length_append, List.length_map, ih,
      List.length_cons, Nat.succ_mul, Nat.add_comm]

theorem length_listProduct {α : Type} (ls : List (List α)) :
    (listProduct ls).length = (ls.map List.length).prod := by
  induction ls with
  | nil => rfl
  | cons l ls ih =>
    rw [listProduct, length_flatMap_map_cons, ih, List.map_cons, List.prod_cons]

/-! Helper lemmas about the stable descending insertion sort. -/

theorem mem_insertDesc (q x : String × ℚ) (l : List (String × ℚ)) :
    x ∈ insertDesc q l ↔ x = q ∨ x ∈ l := by
  induction l with
  | nil => simp [insertDesc]
  | cons r rs ih =>
    simp only [insertDesc]
    split
    · simp [List.mem_cons]
    · simp only [List.mem_cons, ih]
      tauto

theorem pairwise_insertDesc (q : String × ℚ) (l : List (String × ℚ))
    (h : l.Pairwise fun a b => b.2 ≤ a.2) :
    (insertDesc q l).Pairwise fun a b => b.2 ≤ a.2 := by
  induction l with
  | nil => simp [insertDesc]
  | cons r rs ih =>
    rcases List.pairwise_cons.mp h with ⟨hr, hrs⟩
    simp only [insertDesc]
    split
    · rename_i hle
      refine List.Pairwise.cons ?_ h
      intro b hb
      rcases List.mem_cons.mp hb with rfl | hb
      · exact hle
      · exact le_trans (hr b hb) hle
    · rename_i hgt
      push_neg at hgt
      refine List.Pairwise.cons ?_ (ih hrs)
      intro b hb
      rcases (mem_insertDesc q b rs).mp hb with rfl | hb
      · exact le_of_lt hgt
      · exact hr b hb

theorem sortQuotesDesc_cons (y : String × ℚ) (l : List (String × ℚ)) :
    sortQuotesDesc (y :: l) = insertDesc y (sortQuotesDesc l) :=
  rfl

theorem pairwise_sortQuotesDesc (l : List (String × ℚ)) :
    (sortQuotesDesc l).Pairwise fun a b => b.2 ≤ a.2 := by
  induction l with
  | nil => simp [sortQuotesDesc]
  | cons y ys ih => exact pairwise_insertDesc y _ ih

theorem mem_sortQuotesDesc (x : String × ℚ) (l : List (String × ℚ)) :
    x ∈ sortQuotesDesc l ↔ x ∈ l := by
  induction l with
  | nil => simp [sortQuotesDesc]
  | cons y ys ih =>
    rw [sortQuotesDesc_cons, mem_insertDesc, ih, List.mem_cons]

theorem sortQuotesDesc_ne_nil (l : List (String × ℚ)) (h : l ≠ []) :
    sortQuotesDesc l ≠ [] := by
  cases l with
  | nil => exact absurd rfl h
  | cons y ys =>
    intro hnil
    have : y ∈ sortQuotesDesc (y :: ys) := (mem_sortQuotesDesc y _).mpr (List.mem_cons_self y ys)
    rw [hnil] at this
    cases this

theorem le_head_of_mem_sorted (l : List (String × ℚ))
    (hs : l.Pairwise fun a b => b.2 ≤ a.2)
    (x : String × ℚ) (hx : x ∈ l) (h : String × ℚ) (hh : l.head? = some h) :
    x.2 ≤ h.2 := by
  cases l with
  | nil => cases hx
  | cons y ys =>
    cases hh
    rcases List.mem_cons.mp hx with rfl | hx
    · exact le_refl _
    · exact List.rel_of_pairwise_cons hs hx

/-! Helper lemmas about the `outcomes_data` association list. -/

theorem keys_addQuote (acc : List (String × List (String × ℚ))) (n : String) (q : String × ℚ) :
    (addQuote acc n q).map Prod.fst =
      if n ∈ acc.map Prod.fst then acc.map Prod.fst else acc.map Prod.fst ++ [n] := by
  induction acc with
  | nil => simp [addQuote]
  | cons p rest ih =>
    obtain ⟨k, qs⟩ := p
    simp only [addQuote]
    split
    · rename_i hk
      simp [hk]
    · rename_i hk
      have hne : ¬ n = k := fun e => hk e.symm
      simp only [List.map_cons, ih, List.mem_cons]
      split
      · rename_i hmem
        simp [hne, hmem]
      · rename_i hmem
        simp [hne, hmem]

theorem mem_keys_addQuote (acc : List (String × List (String × ℚ))) (n s : String)
    (q : String × ℚ) :
    s ∈ (addQuote acc n q).map Prod.fst ↔ s ∈ acc.map Prod.fst ∨ s = n := by
  rw [keys_addQuote]
  split
  · rename_i hmem
    constructor
    · exact Or.inl
    · rintro (hs | rfl)
      · exact hs
      · exact hmem
  · simp

theorem nodup_keys_addQuote (acc : List (String × List (String × ℚ))) (n : String)
    (q : String × ℚ) (h : (acc.map Prod.fst).Nodup) :
    ((addQuote acc n q).map Prod.fst).Nodup := by
  rw [keys_addQuote]
  split
  · exact h
  · rename_i hmem
    simp [List.nodup_append, h, hmem]

theorem nonempty_vals_addQuote (acc : List (String × List (String × ℚ))) (n : String)
    (q : String × ℚ) (h : ∀ p ∈ acc, p.2 ≠ []) :
    ∀ p ∈ addQuote acc n q, p.2 ≠ [] := by
  induction acc with
  | nil =>
    intro p hp
    simp only [addQuote, List.mem_singleton] at hp
    subst hp
    simp
  | cons hd rest ih =>
    obtain ⟨k, qs⟩ := hd
    intro p hp
    simp only [addQuote] at hp
    split at hp
    · rcases List.mem_cons.mp hp with rfl | hp
      · simp
      · exact h p (List.mem_cons_of_mem _ hp)
    · rcases List.mem_cons.mp hp with rfl | hp
      · exact h (k, qs) (List.mem_cons_self _ _)
      · exact ih (fun p' hp' => h p' (List.mem_cons_of_mem _ hp')) p hp

theorem quoteIn_addQuote (acc : List (String × List (String × ℚ))) (n : String)
    (q x : String × ℚ) (hx : ∃ p ∈ addQuote acc n q, x ∈ p.2) :
    (∃ p ∈ acc, x ∈ p.2) ∨ x = q := by
  induction acc with
  | nil =>
    obtain ⟨p, hp, hxp⟩ := hx
    simp only [addQuote, List.mem_singleton] at hp
    subst hp
    simp only [List.mem_singleton] at hxp
    exact Or.inr hxp
  | cons hd rest ih =>
    obtain ⟨k, qs⟩ := hd
    obtain ⟨p, hp, hxp⟩ := hx
    simp only [addQuote] at hp
    split at hp
    · rcases List.mem_cons.mp hp with rfl | hp
      · simp only [List.mem_append, List.mem_singleton] at hxp
        rcases hxp with hxp | rfl
        · exact Or.inl ⟨(k, qs), List.mem_cons_self _ _, hxp⟩
        · exact Or.inr rfl
      · exact Or.inl ⟨p, List.mem_cons_of_mem _ hp, hxp⟩
    · rcases List.mem_cons.mp hp with rfl | hp
      · exact Or.inl ⟨(k, qs), List.mem_cons_self _ _, hxp⟩
      · rcases ih ⟨p, hp, hxp⟩ with ⟨p', hp', hxp'⟩ | hq
        · exact Or.inl ⟨p', List.mem_cons_of_mem _ hp', hxp'⟩
        · exact Or.inr hq

theorem mem_keys_foldl_addQuote (os : List OutcomeQuote) (t : String)
    (acc : List (String × List (String × ℚ))) (s : String) :
    s ∈ ((os.foldl (fun a o => addQuote a o.name (t, o.price)) acc).map Prod.fst) ↔
      s ∈ acc.map Prod.fst ∨ s ∈ os.map OutcomeQuote.name := by
  induction os generalizing acc with
  | nil => simp
  | cons o os ih =>
    rw [List.foldl_cons, ih, mem_keys_addQuote]
    simp only [List.map_cons, List.mem_cons]
    tauto

theorem nodup_keys_foldl_addQuote (os : List OutcomeQuote) (t : String)
    (acc : List (String × List (String × ℚ))) (h : (acc.map Prod.fst).Nodup) :
    (((os.foldl (fun a o => addQuote a o.name (t, o.price)) acc)).map Prod.fst).Nodup := by
  induction os generalizing acc with
  | nil => exact h
  | cons o os ih => exact ih _ (nodup_keys_addQuote acc o.name (t, o.price) h)

theorem nonempty_vals_foldl_addQuote (os : List OutcomeQuote) (t : String)
    (acc : List (String × List (String × ℚ))) (h : ∀ p ∈ acc, p.2 ≠ []) :
    ∀ p ∈ os.foldl (fun a o => addQuote a o.name (t, o.price)) acc, p.2 ≠ [] := by
  induction os generalizing acc with
  | nil => exact h
  | cons o os ih => exact ih _ (nonempty_vals_addQuote acc o.name (t, o.price) h)

theorem quoteIn_foldl_addQuote (os : List OutcomeQuote) (t : String)
    (acc : List (String × List (String × ℚ))) (x : String × ℚ)
    (hx : ∃ p ∈ os.foldl (fun a o => addQuote a o.name (t, o.price)) acc, x ∈ p.2) :
    (∃ p ∈ acc, x ∈ p.2) ∨ ∃ o ∈ os, x = (t, o.price) := by
  induction os generalizing acc with
  | nil => exact Or.inl hx
  | cons o os ih =>
    rw [List.foldl_cons] at hx
    rcases ih _ hx with hacc | ⟨o', ho', hxo'⟩
    · rcases quoteIn_addQuote acc o.name (t, o.price) x hacc with hacc | rfl
      · exact Or.inl hacc
      · exact Or.inr ⟨o, List.mem_cons_self _ _, rfl⟩
    · exact Or.inr ⟨o', List.mem_cons_of_mem _ ho', hxo'⟩

theorem mem_keys_foldl_addBookmaker (bs : List Bookmaker)
    (acc : List (String × List (String × ℚ))) (s : String) :
    s ∈ ((bs.foldl addBookmaker acc).map Prod.fst) ↔
      s ∈ acc.map Prod.fst ∨ s ∈ observedNames bs := by
  induction bs generalizing acc with
  | nil => simp [observedNames]
  | cons b bs ih =>
    rw [List.foldl_cons, ih]
    simp only [observedNames, List.flatMap_cons, List.mem_append]
    rw [addBookmaker, mem_keys_foldl_addQuote]
    simp only [observedNames, List.mem_flatMap]
    tauto

theorem mem_keys_buildOutcomesData (bs : List Bookmaker) (s : String) :
    s ∈ (buildOutcomesData bs).map Prod.fst ↔ s ∈ observedNames bs := by
  simpa using mem_keys_foldl_addBookmaker bs [] s

theorem nodup_keys_buildOutcomesData (bs : List Bookmaker) :
    ((buildOutcomesData bs).map Prod.fst).Nodup := by
  suffices h : ∀ (bs : List Bookmaker) (acc : List (String × List (String × ℚ))),
      (acc.map Prod.fst).Nodup → ((bs.foldl addBookmaker acc).map Prod.fst).Nodup by
    exact h bs [] (by simp)
  intro bs
  induction bs with
  | nil => exact fun acc h => h
  | cons b bs ih =>
    intro acc hacc
    exact ih _ (nodup_keys_foldl_addQuote _ _ _ hacc)

theorem nonempty_vals_buildOutcomesData (bs : List Bookmaker) :
    ∀ p ∈ buildOutcomesData bs, p.2 ≠ [] := by
  suffices h : ∀ (bs : List Bookmaker) (acc : List (String × List (String × ℚ))),
      (∀ p ∈ acc, p.2 ≠ []) → ∀ p ∈ bs.foldl addBookmaker acc, p.2 ≠ [] by
    exact h bs [] (by simp)
  intro bs
  induction bs with
  | nil => exact fun acc h => h
  | cons b bs ih =>
    intro acc hacc
    exact ih _ (nonempty_vals_foldl_addQuote _ _ _ hacc)

theorem quote_provenance (bs : List Bookmaker) (x : String × ℚ)
    (hx : ∃ p ∈ buildOutcomesData bs, x ∈ p.2) :
    ∃ b ∈ bs, ∃ o ∈ firstMarketQuotes b, x = (b.title, o.price) := by
  suffices h : ∀ (bs : List Bookmaker) (acc : List (String × List (String × ℚ))),
      (∃ p ∈ bs.foldl addBookmaker acc, x ∈ p.2) →
      (∃ p ∈ acc, x ∈ p.2) ∨ ∃ b ∈ bs, ∃ o ∈ firstMarketQuotes b, x = (b.title, o.price) by
    rcases h bs [] hx with ⟨p, hp, _⟩ | hgood
    · cases hp
    · exact hgood
  intro bs
  induction bs with
  | nil => exact fun acc h => Or.inl h
  | cons b bs ih =>
    intro acc hacc
    rw [List.foldl_cons] at hacc
    rcases ih _ hacc with hmid | ⟨b', hb', o', ho', hxo'⟩
    · rcases quoteIn_foldl_addQuote _ _ _ _ hmid with hc | ⟨o, ho, hxo⟩
      · exact Or.inl hc
      · exact Or.inr ⟨b, List.mem_cons_self _ _, o, ho, hxo⟩
    · exact Or.inr ⟨b', List.mem_cons_of_mem _ hb', o', ho', hxo'⟩

theorem firstMarket_mem (b : Bookmaker) (o : OutcomeQuote) (h : o ∈ firstMarketQuotes b) :
    ∃ mkt ∈ b.markets, o ∈ mkt.outcomes := by
  unfold firstMarketQuotes at h
  split at h
  · cases h
  · rename_i mk rest heq
    exact ⟨mk, by rw [heq]; exact List.mem_cons_self _ _, h⟩

/-! Corollaries about `sortedCandidates`. -/

theorem keys_sortedCandidates (m : RawMatch) :
    (sortedCandidates m).map Prod.fst = (buildOutcomesData m.bookmakers).map Prod.fst := by
  simp [sortedCandidates, List.map_map]

theorem sorted_sortedCandidates (m : RawMatch) :
    ∀ p ∈ sortedCandidates m, p.2.Pairwise fun a b => b.2 ≤ a.2 := by
  intro p hp
  simp only [sortedCandidates, List.mem_map] at hp
  obtain ⟨p0, _, rfl⟩ := hp
  exact pairwise_sortQuotesDesc p0.2

theorem nonempty_sortedCandidates (m : RawMatch) :
    ∀ p ∈ sortedCandidates m, p.2 ≠ [] := by
  intro p hp
  simp only [sortedCandidates, List.mem_map] at hp
  obtain ⟨p0, hp0, rfl⟩ := hp
  exact sortQuotesDesc_ne_nil p0.2 (nonempty_vals_buildOutcomesData m.bookmakers p0 hp0)

theorem pos_prices_sortedCandidates (m : RawMatch)
    (hpos : ∀ b ∈ m.bookmakers, ∀ mkt ∈ b.markets, ∀ o ∈ mkt.outcomes, 0 < o.price) :
    ∀ p ∈ sortedCandidates m, ∀ q ∈ p.2, 0 < q.2 := by
  intro p hp q hq
  simp only [sortedCandidates, List.mem_map] at hp
  obtain ⟨p0, hp0, rfl⟩ := hp
  rw [mem_sortQuotesDesc] at hq
  obtain ⟨b, hb, o, ho, rfl⟩ := quote_provenance m.bookmakers q ⟨p0, hp0, hq⟩
  obtain ⟨mkt, hmkt, homkt⟩ := firstMarket_mem b o ho
  exact hpos b hb mkt hmkt o homkt

/-! Corollaries about the capped candidate lists and enumerated combos. -/

theorem capList_eq_take (l : List (String × ℚ)) : capList l = l.take 2 := by
  unfold capList
  split
  · rfl
  · rename_i h
    push_neg at h
    exact (List.take_of_length_le h).symm

theorem length_capList_le (l : List (String × ℚ)) : (capList l).length ≤ 2 := by
  rw [capList_eq_take, List.length_take]
  exact min_le_left _ _

theorem keys_cappedCandidates (m : RawMatch) :
    (cappedCandidates m).map Prod.fst = outcomeNames m := by
  unfold cappedCandidates
  split
  · simp [outcomeNames, List.map_map]
  · rfl

theorem length_cappedCandidates (m : RawMatch) :
    (cappedCandidates m).length = (outcomeNames m).length := by
  rw [← keys_cappedCandidates, List.length_map]

theorem mem_processMatch (now : ℚ) (inc : Bool) (cutoff : ℚ) (m : RawMatch)
    (opp : Opportunity) :
    opp ∈ processMatch now inc cutoff m ↔
      ∃ c ∈ enumCombos now inc m, emitTest cutoff c = true ∧ opp = mkOpportunity now m c := by
  simp only [processMatch, List.mem_map, List.mem_filter]
  constructor
  · rintro ⟨c, ⟨hc, he⟩, rfl⟩
    exact ⟨c, hc, he, rfl⟩
  · rintro ⟨c, hc, he, rfl⟩
    exact ⟨c, ⟨hc, he⟩, rfl⟩

theorem combo_structure (now : ℚ) (inc : Bool) (m : RawMatch)
    (c : List (String × ℚ)) (hc : c ∈ enumCombos now inc m) :
    List.Forall₂ (fun (q : String × ℚ) (p : String × List (String × ℚ)) => q ∈ p.2)
      c (cappedCandidates m) ∧
    2 ≤ (outcomeNames m).length ∧ bestImpliedSum m < 1 := by
  unfold enumCombos at hc
  split_ifs at hc with h1 h2 h3
  · cases hc
  · cases hc
  · cases hc
  · rw [mem_listProduct] at hc
    refine ⟨?_, by omega, by linarith [not_le.mp h3]⟩
    exact List.forall₂_map_right_iff.mp hc

theorem combo_mem_sorted (m : RawMatch) (c : List (String × ℚ))
    (h : List.Forall₂ (fun (q : String × ℚ) (p : String × List (String × ℚ)) => q ∈ p.2)
      c (cappedCandidates m)) :
    List.Forall₂ (fun (q : String × ℚ) (p : String × List (String × ℚ)) => q ∈ p.2)
      c (sortedCandidates m) := by
  unfold cappedCandidates at h
  split_ifs at h
  · rw [List.forall₂_map_right_iff] at h
    refine List.Forall₂.imp ?_ h
    intro q p hq
    rw [capList_eq_take] at hq
    exact List.mem_of_mem_take hq
  · exact h

theorem combo_length (m : RawMatch) (c : List (String × ℚ))
    (h : List.Forall₂ (fun (q : String × ℚ) (p : String × List (String × ℚ)) => q ∈ p.2)
      c (cappedCandidates m)) :
    c.length = (outcomeNames m).length := by
  rw [h.length_eq, length_cappedCandidates]

theorem forall2_zip_keys {R : (String × ℚ) → (String × List (String × ℚ)) → Prop}
    (c : List (String × ℚ)) (cands : List (String × List (String × ℚ)))
    (h : List.Forall₂ R c cands) :
    List.Forall₂ (fun (e : String × String × ℚ) p => e.1 = p.1 ∧ R e.2 p)
      ((cands.map Prod.fst).zip c) cands := by
  induction h with
  | nil => simp
  | cons hx ht ih =>
    simp only [List.map_cons, List.zip_cons_cons]
    exact List.Forall₂.cons ⟨rfl, hx⟩ ih

theorem bestImpliedSum_eq_over_snd (m : RawMatch) :
    bestImpliedSum m =
      (((sortedCandidates m).map Prod.snd).filterMap fun l =>
        l.head?.map fun q => 1 / q.2).sum := by
  rw [bestImpliedSum, List.filterMap_map]
  rfl

theorem bestSum_le_totalImplied (ls : List (List (String × ℚ))) (c : List (String × ℚ))
    (hmem : List.Forall₂ (· ∈ ·) c ls)
    (hpos : ∀ l ∈ ls, ∀ q ∈ l, 0 < q.2)
    (hsort : ∀ l ∈ ls, l.Pairwise fun a b => b.2 ≤ a.2) :
    (ls.filterMap fun l => l.head?.map fun q => 1 / q.2).sum ≤ totalImplied c := by
  induction hmem with
  | nil => simp [totalImplied]
  | @cons a l c' ls' hx htail ih =>
    cases l with
    | nil => cases hx
    | cons hh ht =>
      have hhead : (1 : ℚ) / hh.2 ≤ 1 / a.2 := by
        have hpa : 0 < a.2 := hpos _ (List.mem_cons_self _ _) a hx
        have hle : a.2 ≤ hh.2 :=
          le_head_of_mem_sorted _ (hsort _ (List.mem_cons_self _ _)) a hx hh rfl
        exact one_div_le_one_div_of_le hpa hle
      have hrest :
          (ls'.filterMap fun l => l.head?.map fun q => 1 / q.2).sum ≤ totalImplied c' :=
        ih (fun l hl => hpos l (List.mem_cons_of_mem _ hl))
          (fun l hl => hsort l (List.mem_cons_of_mem _ hl))
      simp only [List.filterMap_cons, List.head?_cons, Option.map_some, totalImplied,
        List.map_cons, List.sum_cons]
      exact add_le_add hhead hrest

/-! Concrete data used by the witnesses. -/

/-- Two-outcome match: outcome A at price 2 with bookmaker X, outcome B at
price 4 with bookmaker Y; implied sum 3/4. -/
def exMatch2 : RawMatch :=
  { commence_time := 3600, home_team := "Home", away_team := "Away",
    sport_key := "soccer_epl",
    bookmakers := [⟨"X", [⟨[⟨"A", 2⟩]⟩]⟩, ⟨"Y", [⟨[⟨"B", 4⟩]⟩]⟩] }

/-- The single combination of `exMatch2`. -/
def exCombo2 : List (String × ℚ) := [("X", 2), ("Y", 4)]

/-- Two-outcome match whose best-price implied sum is exactly 1. -/
def exMatchGE : RawMatch :=
  { commence_time := 3600, home_team := "Home", away_team := "Away",
    sport_key := "soccer_epl",
    bookmakers := [⟨"X", [⟨[⟨"A", 2⟩]⟩]⟩, ⟨"Y", [⟨[⟨"B", 2⟩]⟩]⟩] }

/-- Four-outcome match (one bookmaker quoting price 8 on each outcome). -/
def exMatch4 : RawMatch :=
  { commence_time := 3600, home_team := "Home", away_team := "Away",
    sport_key := "tennis_atp",
    bookmakers := [⟨"Z", [⟨[⟨"A", 8⟩, ⟨"B", 8⟩, ⟨"C", 8⟩, ⟨"D", 8⟩]⟩]⟩] }

/-- Copy of `exMatch2` whose start time lies two hours in the past of
`now = 0`. -/
def exStarted : RawMatch :=
  { commence_time := -7200, home_team := "Home", away_team := "Away",
    sport_key := "soccer_epl",
    bookmakers := [⟨"X", [⟨[⟨"A", 2⟩]⟩]⟩, ⟨"Y", [⟨[⟨"B", 4⟩]⟩]⟩] }

/-- Staking `bankroll * (1/odd)/total` at decimal odds `odd` always pays out
`bankroll / total`. -/
theorem stake_mul_odd (bankroll total o : ℚ) (ho : o ≠ 0) :
    bankroll * (1 / o / total) * o = bankroll / total := by
  calc bankroll * (1 / o / total) * o = bankroll * (1 / o / total * o) := by ring
    _ = bankroll * (1 / total) := by
        rw [div_mul_eq_mul_div, one_div_mul_cancel ho]
    _ = bankroll / total := mul_one_div _ _

/-- C1: for every match the Scanner processes and every enumerated
combination of (bookmaker, price) choices, an `ArbitrageOpportunity` is
emitted iff `0 < total_implied < 1` and `(1 - total_implied) ≥ cutoff`; so
every emitted opportunity carries `total_implied_odds` in (0, 1) with profit
margin at least the cutoff, the cutoff being a fraction. -/
theorem emit_iff_profitable (now : ℚ) (inc : Bool) (cutoff : ℚ) (m : RawMatch) :
    (∀ opp ∈ processMatch now inc cutoff m,
      0 < opp.total_implied_odds ∧ opp.total_implied_odds < 1 ∧
        cutoff ≤ 1 - opp.total_implied_odds) ∧
    (∀ c ∈ enumCombos now inc m,
      (mkOpportunity now m c ∈ processMatch now inc cutoff m ↔
        (0 < totalImplied c ∧ totalImplied c < 1 ∧ cutoff ≤ 1 - totalImplied c))) := by
  have hsound : ∀ opp ∈ processMatch now inc cutoff m,
      0 < opp.total_implied_odds ∧ opp.total_implied_odds < 1 ∧
        cutoff ≤ 1 - opp.total_implied_odds := by
    intro opp hopp
    rw [mem_processMatch] at hopp
    obtain ⟨c, _, he, rfl⟩ := hopp
    rw [emitTest, decide_eq_true_eq] at he
    exact ⟨he.2.1, he.1, he.2.2⟩
  refine ⟨hsound, ?_⟩
  intro c hc
  constructor
  · intro hmem
    exact ⟨(hsound _ hmem).1, (hsound _ hmem).2.1, (hsound _ hmem).2.2⟩
  · intro hcond
    rw [mem_processMatch]
    refine ⟨c, hc, ?_, rfl⟩
    rw [emitTest, decide_eq_true_eq]
    exact ⟨hcond.2.1, hcond.1, hcond.2.2⟩

/-- Witness for C1 on `exMatch2`. -/
theorem emit_iff_profitable_witness :
    mkOpportunity 0 exMatch2 exCombo2 ∈ processMatch 0 true 0 exMatch2 ∧
    0 < (mkOpportunity 0 exMatch2 exCombo2).total_implied_odds := by
  have hc : exCombo2 ∈ enumCombos 0 true exMatch2 := by
    norm_num +decide [enumCombos, outcomeNames, sortedCandidates, exMatch2, exCombo2,
      buildOutcomesData, addBookmaker, addQuote, firstMarketQuotes, sortQuotesDesc,
      insertDesc, bestImpliedSum, cappedCandidates, capList, listProduct,
      List.filterMap_cons]
  have hcond : 0 < totalImplied exCombo2 ∧ totalImplied exCombo2 < 1 ∧
      (0 : ℚ) ≤ 1 - totalImplied exCombo2 := by
    norm_num [totalImplied, exCombo2]
  have hmem := ((emit_iff_profitable 0 true 0 exMatch2).2 exCombo2 hc).mpr
    ⟨hcond.1, hcond.2.1, hcond.2.2⟩
  exact ⟨hmem, ((emit_iff_profitable 0 true 0 exMatch2).1 _ hmem).1⟩

/-- C2: for a match with positive prices whose best-price implied sum is
≥ 1, the Scanner emits nothing, and the pruning is lossless: every
combination drawn from the per-outcome candidate lists has implied sum
≥ 1. -/
theorem pruning_lossless (now : ℚ) (inc : Bool) (cutoff : ℚ) (m : RawMatch)
    (hpos : ∀ b ∈ m.bookmakers, ∀ mkt ∈ b.markets, ∀ o ∈ mkt.outcomes, 0 < o.price)
    (hge : 1 ≤ bestImpliedSum m) :
    processMatch now inc cutoff m = [] ∧
    ∀ c ∈ listProduct ((sortedCandidates m).map Prod.snd), 1 ≤ totalImplied c := by
  constructor
  · unfold processMatch enumCombos
    split_ifs
    · rfl
    · rfl
    · rfl
  · intro c hc
    rw [mem_listProduct] at hc
    have hbest :
        (((sortedCandidates m).map Prod.snd).filterMap fun l =>
          l.head?.map fun q => 1 / q.2).sum ≤ totalImplied c := by
      refine bestSum_le_totalImplied _ c hc ?_ ?_
      · intro l hl q hq
        rw [List.mem_map] at hl
        obtain ⟨p, hp, rfl⟩ := hl
        exact pos_prices_sortedCandidates m hpos p hp q hq
      · intro l hl
        rw [List.mem_map] at hl
        obtain ⟨p, hp, rfl⟩ := hl
        exact sorted_sortedCandidates m p hp
    rw [← bestImpliedSum_eq_over_snd] at hbest
    exact le_trans hge hbest

/-- Witness for C2 on `exMatchGE`. -/
theorem pruning_lossless_witness :
    1 ≤ bestImpliedSum exMatchGE ∧
    processMatch 0 true 0 exMatchGE = [] ∧
    1 ≤ totalImplied [("X", (2 : ℚ)), ("Y", 2)] := by
  have hpos : ∀ b ∈ exMatchGE.bookmakers, ∀ mkt ∈ b.markets, ∀ o ∈ mkt.outcomes,
      0 < o.price := by
    intro b hb mkt hmkt o ho
    fin_cases hb <;> fin_cases hmkt <;> fin_cases ho <;> norm_num
  have hge : 1 ≤ bestImpliedSum exMatchGE := by
    norm_num +decide [bestImpliedSum, sortedCandidates, exMatchGE, buildOutcomesData,
      addBookmaker, addQuote, firstMarketQuotes, sortQuotesDesc, insertDesc,
      List.filterMap_cons]
  have hcmem : [("X", (2 : ℚ)), ("Y", 2)] ∈
      listProduct ((sortedCandidates exMatchGE).map Prod.snd) := by
    norm_num +decide [sortedCandidates, exMatchGE, buildOutcomesData, addBookmaker,
      addQuote, firstMarketQuotes, sortQuotesDesc, insertDesc, listProduct]
  exact ⟨hge, (pruning_lossless 0 true 0 exMatchGE hpos hge).1,
    (pruning_lossless 0 true 0 exMatchGE hpos hge).2 _ hcmem⟩

/-- C5: outcome names are distinct and are exactly the names observed in the
match's first-market bookmaker data; a match with fewer than 2 distinct
outcomes emits nothing; every emitted opportunity chooses one (bookmaker,
price) per outcome over exactly that outcome set, of cardinality ≥ 2. -/
theorem outcome_set_exact (now : ℚ) (inc : Bool) (cutoff : ℚ) (m : RawMatch) :
    (outcomeNames m).Nodup ∧
    (∀ s, s ∈ outcomeNames m ↔ s ∈ observedNames m.bookmakers) ∧
    ((outcomeNames m).length < 2 → processMatch now inc cutoff m = []) ∧
    (∀ opp ∈ processMatch now inc cutoff m,
      opp.best_outcome_odds.map Prod.fst = outcomeNames m ∧
      2 ≤ (outcomeNames m).length) := by
  refine ⟨?_, ?_, ?_, ?_⟩
  · unfold outcomeNames
    rw [keys_sortedCandidates]
    exact nodup_keys_buildOutcomesData _
  · intro s
    unfold outcomeNames
    rw [keys_sortedCandidates]
    exact mem_keys_buildOutcomesData _ s
  · intro hlt
    unfold processMatch enumCombos
    split_ifs
    · rfl
    · rfl
  · intro opp hopp
    rw [mem_processMatch] at hopp
    obtain ⟨c, hc, _, rfl⟩ := hopp
    obtain ⟨hf2, hlen2, _⟩ := combo_structure now inc m c hc
    have hclen : c.length = (outcomeNames m).length := combo_length m c hf2
    refine ⟨?_, hlen2⟩
    show ((outcomeNames m).zip c).map Prod.fst = outcomeNames m
    exact List.map_fst_zip _ _ (le_of_eq hclen.symm)

/-- Witness for C5 on `exMatch2`. -/
theorem outcome_set_exact_witness :
    (mkOpportunity 0 exMatch2 exCombo2).best_outcome_odds.map Prod.fst =
      outcomeNames exMatch2 ∧
    2 ≤ (outcomeNames exMatch2).length ∧
    ("A" ∈ outcomeNames exMatch2 ↔ "A" ∈ observedNames exMatch2.bookmakers) := by
  have hmem : mkOpportunity 0 exMatch2 exCombo2 ∈ processMatch 0 true 0 exMatch2 := by
    norm_num +decide [processMatch, enumCombos, outcomeNames, sortedCandidates, exMatch2,
      exCombo2, buildOutcomesData, addBookmaker, addQuote, firstMarketQuotes,
      sortQuotesDesc, insertDesc, bestImpliedSum, cappedCandidates, capList, listProduct,
      emitTest, totalImplied, List.filterMap_cons, List.filter_cons, decide_eq_true_eq]
  have h := (outcome_set_exact 0 true 0 exMatch2).2.2.2 _ hmem
  exact ⟨h.1, h.2, (outcome_set_exact 0 true 0 exMatch2).2.1 "A"⟩

/-- C6: for a match with more than 3 distinct outcomes the candidate lists
are truncated to their top 2 entries (the lists being sorted descending by
price), the number of enumerated combinations is at most 2^(outcome count),
and every emitted opportunity picks, for each outcome, a quote among the top
2 of that outcome's descending-sorted candidate list. -/
theorem cap_top2 (now : ℚ) (inc : Bool) (cutoff : ℚ) (m : RawMatch)
    (h : 3 < (outcomeNames m).length) :
    (enumCombos now inc m).length ≤ 2 ^ (outcomeNames m).length ∧
    (∀ p ∈ sortedCandidates m, p.2.Pairwise fun a b => b.2 ≤ a.2) ∧
    (∀ opp ∈ processMatch now inc cutoff m,
      List.Forall₂ (fun (e : String × String × ℚ) (p : String × List (String × ℚ)) =>
        e.1 = p.1 ∧ e.2 ∈ p.2.take 2) opp.best_outcome_odds (sortedCandidates m)) := by
  refine ⟨?_, sorted_sortedCandidates m, ?_⟩
  · unfold enumCombos
    split_ifs
    · exact Nat.zero_le _
    · exact Nat.zero_le _
    · exact Nat.zero_le _
    · rw [length_listProduct]
      have hle : ∀ x ∈ ((cappedCandidates m).map Prod.snd).map List.length, x ≤ 2 := by
        intro x hx
        simp only [List.map_map, List.mem_map] at hx
        obtain ⟨p, hp, rfl⟩ := hx
        unfold cappedCandidates at hp
        rw [if_pos h] at hp
        rw [List.mem_map] at hp
        obtain ⟨p0, _, rfl⟩ := hp
        exact length_capList_le p0.2
      calc (((cappedCandidates m).map Prod.snd).map List.length).prod
          ≤ 2 ^ (((cappedCandidates m).map Prod.snd).map List.length).length :=
            List.prod_le_pow_card _ _ hle
        _ = 2 ^ (outcomeNames m).length := by
            rw [List.length_map, List.length_map, length_cappedCandidates]
  · intro opp hopp
    rw [mem_processMatch] at hopp
    obtain ⟨c, hc, _, rfl⟩ := hopp
    obtain ⟨hf2, _, _⟩ := combo_structure now inc m c hc
    have hf2' : List.Forall₂ (fun (q : String × ℚ) (p : String × List (String × ℚ)) =>
        q ∈ p.2.take 2) c (sortedCandidates m) := by
      unfold cappedCandidates at hf2
      rw [if_pos h] at hf2
      rw [List.forall₂_map_right_iff] at hf2
      refine hf2.imp ?_
      intro q p hq
      rwa [capList_eq_take] at hq
    have hzip := forall2_zip_keys c (sortedCandidates m) hf2'
    exact hzip

/-- Witness for C6 on `exMatch4`. -/
theorem cap_top2_witness :
    3 < (outcomeNames exMatch4).length ∧
    (enumCombos 0 true exMatch4).length ≤ 2 ^ (outcomeNames exMatch4).length := by
  have h4 : 3 < (outcomeNames exMatch4).length := by
    norm_num +decide [outcomeNames, sortedCandidates, exMatch4, buildOutcomesData,
      addBookmaker, addQuote, firstMarketQuotes]
  exact ⟨h4, (cap_top2 0 true 0 exMatch4 h4).1⟩

/-- C3: every entry of the allocation carries
`percentage = (1/price)/totalImpliedOdds * 100` and
`amount = bankroll * (1/price)/totalImpliedOdds`, and (for a nonzero price)
its payout `amount * price` equals `bankroll / totalImpliedOdds` — the same
value for every outcome, so the payout is outcome-independent. -/
theorem allocation_formulas (d : List (String × String × ℚ)) (total bankroll : ℚ)
    (e : String × Allocation)
    (he : e ∈ calculate_bankroll_allocation d total bankroll)
    (hodd : e.2.odd ≠ 0) :
    e.2.percentage = 1 / e.2.odd / total * 100 ∧
    e.2.amount = bankroll * (1 / e.2.odd / total) ∧
    payoutOf e.2 = bankroll / total := by
  simp only [calculate_bankroll_allocation, List.mem_map] at he
  obtain ⟨x, hx, rfl⟩ := he
  have ho : x.2.2 ≠ 0 := hodd
  exact ⟨rfl, rfl, stake_mul_odd bankroll total x.2.2 ho⟩

/-- Witness for C3 on a two-outcome allocation at odds 4 and 4. -/
theorem allocation_formulas_witness :
    ("A", (⟨50, 500, "X", 4⟩ : Allocation)) ∈
      calculate_bankroll_allocation [("A", "X", 4), ("B", "Y", 4)] (1/2) 1000 ∧
    payoutOf (⟨50, 500, "X", 4⟩ : Allocation) = 1000 / (1/2 : ℚ) := by
  have he : ("A", (⟨50, 500, "X", 4⟩ : Allocation)) ∈
      calculate_bankroll_allocation [("A", "X", 4), ("B", "Y", 4)] (1/2) 1000 := by
    norm_num [calculate_bankroll_allocation]
  exact ⟨he,
    (allocation_formulas [("A", "X", 4), ("B", "Y", 4)] (1/2) 1000 _ he
      (by norm_num)).2.2⟩

/-- Counterexample to C4: at odds 4/4 with `totalImpliedOdds = 1/2` (the sum
of implied odds) and bankroll 1000, the full bankroll is staked, the payout
is 2000, so the net profit is 1000 — not
`bankroll * (1 - totalImpliedOdds) = 500` as claimed. -/
theorem net_profit_formula_counterexample :
    totalImplied [("X", (4 : ℚ)), ("Y", 4)] = 1/2 ∧
    totalStaked
      (calculate_bankroll_allocation [("A", "X", (4 : ℚ)), ("B", "Y", 4)] (1/2) 1000)
      = 1000 ∧
    payoutOf
      ((calculate_bankroll_allocation [("A", "X", (4 : ℚ)), ("B", "Y", 4)] (1/2) 1000).headD
        ("", ⟨0, 0, "", 0⟩)).2 = 2000 ∧
    displayedProfit 1000 (1/2) = 500 ∧
    (2000 : ℚ) - 1000 ≠ displayedProfit 1000 (1/2) := by
  norm_num [totalImplied, totalStaked, payoutOf, calculate_bankroll_allocation,
    displayedProfit]

/-- C4 as amended: when `totalImpliedOdds` equals the sum of implied odds of
the chosen outcomes and is nonzero, the full bankroll is staked and the net
profit — payout minus total staked — equals
`bankroll * (1 - totalImpliedOdds) / totalImpliedOdds` for every outcome
(the claimed `bankroll * (1 - totalImpliedOdds)` is the profit relative to
the payout, not to the stake). -/
theorem equal_net_profit (d : List (String × String × ℚ)) (bankroll total : ℚ)
    (htot : total = (d.map fun x => 1 / x.2.2).sum) (hne : total ≠ 0)
    (hodds : ∀ x ∈ d, x.2.2 ≠ 0) :
    totalStaked (calculate_bankroll_allocation d total bankroll) = bankroll ∧
    ∀ e ∈ calculate_bankroll_allocation d total bankroll,
      payoutOf e.2 - totalStaked (calculate_bankroll_allocation d total bankroll) =
        bankroll * (1 - total) / total := by
  have hsum : ∀ l : List (String × String × ℚ),
      (l.map fun x => bankroll * (1 / x.2.2 / total)).sum =
        bankroll / total * (l.map fun x => 1 / x.2.2).sum := by
    intro l
    induction l with
    | nil => simp
    | cons y ys ih =>
      simp only [List.map_cons, List.sum_cons, ih]
      ring
  have hstake : totalStaked (calculate_bankroll_allocation d total bankroll) = bankroll := by
    unfold totalStaked calculate_bankroll_allocation
    rw [List.map_map]
    have : ((fun p : String × Allocation => p.2.amount) ∘ fun x : String × String × ℚ =>
        (x.1, (⟨1 / x.2.2 / total * 100, bankroll * (1 / x.2.2 / total), x.2.1, x.2.2⟩ :
          Allocation))) = fun x : String × String × ℚ => bankroll * (1 / x.2.2 / total) :=
      rfl
    rw [this, hsum, ← htot, div_mul_cancel₀ _ hne]
  refine ⟨hstake, ?_⟩
  intro e he
  rw [hstake]
  simp only [calculate_bankroll_allocation, List.mem_map] at he
  obtain ⟨x, hx, rfl⟩ := he
  have ho : x.2.2 ≠ 0 := hodds x hx
  have hp : payoutOf (⟨1 / x.2.2 / total * 100, bankroll * (1 / x.2.2 / total),
      x.2.1, x.2.2⟩ : Allocation) = bankroll / total :=
    stake_mul_odd bankroll total x.2.2 ho
  rw [hp]
  field_simp
  ring

/-- Witness for the amended C4 at odds 4/4, bankroll 1000. -/
theorem equal_net_profit_witness :
    totalStaked
      (calculate_bankroll_allocation [("A", "X", (4 : ℚ)), ("B", "Y", 4)] (1/2) 1000)
      = 1000 ∧
    payoutOf (⟨50, 500, "X", 4⟩ : Allocation) -
      totalStaked
        (calculate_bankroll_allocation [("A", "X", (4 : ℚ)), ("B", "Y", 4)] (1/2) 1000)
      = 1000 * (1 - 1/2) / (1/2) := by
  have htot : (1/2 : ℚ) =
      (([("A", "X", (4 : ℚ)), ("B", "Y", 4)]).map fun x => 1 / x.2.2).sum := by
    norm_num
  have hodds : ∀ x ∈ [("A", "X", (4 : ℚ)), ("B", "Y", 4)], x.2.2 ≠ 0 := by
    intro x hx
    fin_cases hx <;> norm_num
  have he : ("A", (⟨50, 500, "X", 4⟩ : Allocation)) ∈
      calculate_bankroll_allocation [("A", "X", (4 : ℚ)), ("B", "Y", 4)] (1/2) 1000 := by
    norm_num [calculate_bankroll_allocation]
  have h := equal_net_profit [("A", "X", (4 : ℚ)), ("B", "Y", 4)] 1000 (1/2) htot
    (by norm_num) hodds
  exact ⟨h.1, h.2 _ he⟩

/-- C7: a failing retrieval for one sport contributes an empty result — the
whole call behaves exactly as if that sport had returned no matches — so the
other sports' results are unaffected and the failure never propagates. -/
theorem sport_failure_isolated (now cutoff : ℚ) (selected : List String)
    (catalog : List SportItem) (oddsOf : String → Except FetchError (List FetchEntry))
    (s0 : String) (err : FetchError) (hfail : oddsOf s0 = .error err) :
    fetch_sport_data (oddsOf s0) = [] ∧
    get_arbitrage_opportunities now cutoff selected catalog oddsOf =
      get_arbitrage_opportunities now cutoff selected catalog
        (fun s => if s = s0 then Except.ok [] else oddsOf s) := by
  constructor
  · rw [hfail]
    rfl
  · have hfg : (fun s => fetch_sport_data (oddsOf s)) =
        fun s => fetch_sport_data (if s = s0 then Except.ok [] else oddsOf s) := by
      funext s
      by_cases h : s = s0
      · subst h
        rw [hfail, if_pos rfl]
        rfl
      · rw [if_neg h]
    rw [get_arbitrage_opportunities, get_arbitrage_opportunities, hfg]

/-- Witness for C7 with a concrete failing oracle. -/
theorem sport_failure_isolated_witness :
    fetch_sport_data ((fun s => if s = "bad" then Except.error (⟨"boom"⟩ : FetchError)
      else Except.ok ([] : List FetchEntry)) "bad") = [] ∧
    get_arbitrage_opportunities 0 0 ["good", "bad"] []
        (fun s => if s = "bad" then Except.error ⟨"boom"⟩ else Except.ok []) =
      get_arbitrage_opportunities 0 0 ["good", "bad"] []
        (fun s => if s = "bad" then Except.ok []
          else if s = "bad" then Except.error ⟨"boom"⟩ else Except.ok []) := by
  exact sport_failure_isolated 0 0 ["good", "bad"] []
    (fun s => if s = "bad" then Except.error ⟨"boom"⟩ else Except.ok [])
    "bad" ⟨"boom"⟩ (by simp)

/-- Counterexample to C8: with an empty sport selection and a catalog
holding the single (active, non-outright) sport "golf_pga", the resolved
query list is empty — the catalog sport's odds are never fetched, because
`get_sports` keeps only keys containing a popular-sport substring. -/
theorem full_catalog_not_queried :
    "golf_pga" ∈ ([⟨"golf_pga", false, true⟩] : List SportItem).map SportItem.key ∧
    sportsQueried [] [⟨"golf_pga", false, true⟩] = [] := by
  constructor
  · simp
  · decide

/-- C8 as amended: an empty/absent selection resolves the catalog and then
fetches odds exactly for the sports `get_sports` keeps — those whose key
contains a popular-sport substring (lowercased) and that are not
outright-only-and-inactive — not for every catalog sport. -/
theorem catalog_filtered_resolution (now cutoff : ℚ) (catalog : List SportItem)
    (oddsOf : String → Except FetchError (List FetchEntry)) :
    (get_arbitrage_opportunities now cutoff [] catalog oddsOf =
      processEntries now true cutoff
        ((((get_sports catalog).map fun s => fetch_sport_data (oddsOf s)).flatten).filter
          keepEntry)) ∧
    (∀ s, s ∈ get_sports catalog ↔
      ∃ item ∈ catalog, item.key = s ∧
        ¬(item.has_outrights = true ∧ item.active = false) ∧
        ∃ pop ∈ popular_sports, hasSub pop.toList (lowerChars s.toList) = true) := by
  constructor
  · rw [get_arbitrage_opportunities]
    simp [sportsQueried]
  · intro s
    simp only [get_sports, List.mem_filterMap]
    constructor
    · rintro ⟨item, hitem, hf⟩
      by_cases h1 : item.has_outrights = true ∧ item.active = false
      · rw [if_pos h1] at hf
        cases hf
      · rw [if_neg h1] at hf
        by_cases h2 : (popular_sports.any fun pop =>
            hasSub pop.toList (lowerChars item.key.toList)) = true
        · rw [if_pos h2] at hf
          obtain rfl := Option.some.inj hf
          rw [List.any_eq_true] at h2
          obtain ⟨pop, hpop, hsub⟩ := h2
          exact ⟨item, hitem, rfl, h1, pop, hpop, hsub⟩
        · rw [if_neg h2] at hf
          cases hf
    · rintro ⟨item, hitem, rfl, h1, pop, hpop, hsub⟩
      refine ⟨item, hitem, ?_⟩
      rw [if_neg h1, if_pos (List.any_eq_true.mpr ⟨pop, hpop, hsub⟩)]

/-- Witness for the amended C8 on an empty catalog. -/
theorem catalog_filtered_resolution_witness :
    get_arbitrage_opportunities 0 0 [] [] (fun _ => Except.ok []) =
      processEntries 0 true 0
        ((((get_sports []).map fun s =>
          fetch_sport_data ((fun _ => Except.ok []) s)).flatten).filter keepEntry) ∧
    ("soccer_epl" ∈ get_sports [⟨"soccer_epl", false, true⟩] ↔
      ∃ item ∈ ([⟨"soccer_epl", false, true⟩] : List SportItem), item.key = "soccer_epl" ∧
        ¬(item.has_outrights = true ∧ item.active = false) ∧
        ∃ pop ∈ popular_sports,
          hasSub pop.toList (lowerChars ("soccer_epl").toList) = true) := by
  exact ⟨(catalog_filtered_resolution 0 0 [] (fun _ => Except.ok [])).1,
    (catalog_filtered_resolution 0 0 [⟨"soccer_epl", false, true⟩]
      (fun _ => Except.ok [])).2 "soccer_epl"⟩

/-- Counterexample to C9: a dict entry lacking the match fields but carrying
no "message" key passes the line-201 filter, reaches the Scanner, and makes
the whole call fail — the orchestrator does not discard every malformed
entry. -/
theorem malformed_entry_reaches_scanner :
    keepEntry FetchEntry.otherDict = true ∧
    readMatch FetchEntry.otherDict = none ∧
    get_arbitrage_opportunities 0 0 ["a"] []
      (fun _ => Except.ok [FetchEntry.otherDict]) = none := by
  exact ⟨rfl, rfl, rfl⟩

/-- C9 as amended: the orchestrator's filter discards exactly the entries
that are not dicts or that carry a "message" key; every well-formed match
record passes, and a dict without "message" passes even when it lacks the
match fields. -/
theorem filter_drops_only_message_and_nondict (es : List FetchEntry) :
    (∀ e, keepEntry e = (isDictEntry e && !hasMessageKey e)) ∧
    (∀ e ∈ es.filter keepEntry, isDictEntry e = true ∧ hasMessageKey e = false) ∧
    (∀ m : RawMatch, FetchEntry.matchRec m ∈ es →
      FetchEntry.matchRec m ∈ es.filter keepEntry) := by
  refine ⟨?_, ?_, ?_⟩
  · intro e
    cases e <;> rfl
  · intro e he
    rw [List.mem_filter] at he
    cases e <;> simp_all [keepEntry, isDictEntry, hasMessageKey]
  · intro m hm
    rw [List.mem_filter]
    exact ⟨hm, rfl⟩

/-- Witness for the amended C9. -/
theorem filter_drops_only_message_and_nondict_witness :
    FetchEntry.matchRec exMatch2 ∈
      ([FetchEntry.matchRec exMatch2, FetchEntry.messageDict,
        FetchEntry.nonDict] : List FetchEntry).filter keepEntry := by
  exact (filter_drops_only_message_and_nondict _).2.2 exMatch2 (by simp)

/-- C10: `get_arbitrage_opportunities` hands the Scanner
`include_started_matches` at its default true, the enumerated combinations
are then independent of the clock — started matches are scanned like any
other — and a match already started at scan time yields opportunities with
a negative `hours_to_start`. -/
theorem started_matches_included (now now2 cutoff : ℚ) (selected : List String)
    (catalog : List SportItem) (oddsOf : String → Except FetchError (List FetchEntry))
    (m : RawMatch) (c : List (String × ℚ)) :
    (get_arbitrage_opportunities now cutoff selected catalog oddsOf =
      processEntries now true cutoff
        ((((sportsQueried selected catalog).map fun s =>
          fetch_sport_data (oddsOf s)).flatten).filter keepEntry)) ∧
    enumCombos now true m = enumCombos now2 true m ∧
    ((m.commence_time : ℚ) < now → (mkOpportunity now m c).hours_to_start < 0) := by
  refine ⟨rfl, ?_, ?_⟩
  · simp [enumCombos]
  · intro h
    show ((m.commence_time : ℚ) - now) / 3600 < 0
    apply div_neg_of_neg_of_pos
    · linarith
    · norm_num

/-- Witness for C10: the started match `exStarted` is scanned and its
opportunity carries a negative hours-to-start. -/
theorem started_matches_included_witness :
    (mkOpportunity 0 exStarted exCombo2).hours_to_start < 0 ∧
    mkOpportunity 0 exStarted exCombo2 ∈ processMatch 0 true 0 exStarted := by
  constructor
  · exact (started_matches_included 0 0 0 [] [] (fun _ => Except.ok [])
      exStarted exCombo2).2.2 (by norm_num [exStarted])
  · norm_num +decide [processMatch, enumCombos, outcomeNames, sortedCandidates, exStarted,
      exCombo2, buildOutcomesData, addBookmaker, addQuote, firstMarketQuotes,
      sortQuotesDesc, insertDesc, bestImpliedSum, cappedCandidates, capList, listProduct,
      emitTest, totalImplied, List.filterMap_cons, List.filter_cons, decide_eq_true_eq]
